import Mathlib

/-!
Verification of the c14n repository (Exclusive Canonical XML canonicalization).

The development shallowly embeds the Go sources:
  * `c14n.go`            — the canonicalization driver (`Canonicalize`);
  * `internal/sortattr`  — the attribute comparator (`SortAttr.Less`);
  * `internal/stack`     — the namespace scope stack.

Strings model Go strings, `List Char` models byte buffers (all emitted markup
is ASCII; UTF-8 byte order and code-point order agree, so `String` comparison
models Go's byte-wise `<`).  Go maps are modelled as association lists whose
lookup returns the most recent insertion; every use in the source is
insensitive to Go's unspecified map iteration order (the built sets are either
used as sets or sorted afterwards).
-/

/-- Model of `xml.Name`: a namespace-qualifying token (called the namespace
"Space" in `encoding/xml`) together with a local name. -/
structure Name where
  Space : String
  Local : String
deriving DecidableEq, Repr

/-- Model of `xml.Attr`: a qualified name and a value. -/
structure Attr where
  Name : Name
  Value : String
deriving DecidableEq, Repr

/-- Model of the raw XML tokens consumed by `Canonicalize` (`xml.StartElement`,
`xml.EndElement`, `xml.CharData`, `xml.ProcInst`). -/
inductive Token where
  | StartElement (name : Name) (attr : List Attr)
  | EndElement (name : Name)
  | CharData (s : String)
  | ProcInst (target : String) (inst : String)
deriving DecidableEq, Repr

/-- Model of `getNamespace` in `c14n.go`: the namespace declared by an
attribute, or `none` when the attribute is not a namespace declaration. -/
def getNamespace (attr : Attr) : Option String :=
  if attr.Name.Space = "" ∧ attr.Name.Local = "xmlns" then some ""
  else if attr.Name.Space = "xmlns" then some attr.Name.Local
  else none

namespace nsstack

/-- One scope frame: declared prefix-to-URI bindings of one open element.
Lookup returns the most recently inserted binding for a key, mirroring Go map
assignment. -/
abbrev Frame := List (String × String)

/-- The namespace scope stack used by the head `c14n.go` driver.  The innermost
frame is the head of the list (Go stores it at the end of a slice and scans
backwards; the two presentations are mirror images). -/
abbrev Stack := List Frame

/-- Association-list lookup: value of the most recently inserted binding. -/
def lookupF : List (String × String) → String → Option String
  | [], _ => none
  | (k, v) :: rest, n => if k = n then some v else lookupF rest n

/-- Model of `Stack.Push`: add a frame holding the given bindings. -/
def Push (s : Stack) (names : Frame) : Stack := names :: s

/-- Modelled from the spec: the two-result scoped lookup (`Get`) of the stack
implementation compiled into the head `c14n.go` driver, which is not among the
source files (only historical stack variants are).  Per the spec, lookup scans
from the innermost frame to the outermost and returns the first match; absence
is reported (the driver reads it as the empty URI where it ignores the flag).
`none` plays the role of Go's `("", false)` result. -/
def Get : Stack → String → Option String
  | [], _ => none
  | f :: rest, name =>
    match lookupF f name with
    | some v => some v
    | none => Get rest name

/-- Model of `Stack.Pop`: Go executes `*s = (*s)[:len(*s)-1]`, an out-of-bounds
slice expression on an empty stack (a runtime panic); the `none` result models
that panic. -/
def Pop : Stack → Option Stack
  | [] => none
  | _ :: rest => some rest

/-- Model of `Stack.Len`. -/
def Len (s : Stack) : Nat := s.length

/-- Every key bound somewhere on the stack (innermost frame's keys first,
duplicates removed).  This enumerates the domain iterated by the driver; Go's
map iteration order is unspecified and every use downstream is
order-insensitive. -/
def allKeys (s : Stack) : List String :=
  (s.foldr (fun f acc => f.map Prod.fst ++ acc) []).dedup

/-- Modelled from the spec: `GetAll`, the "full resolved set" of the stack —
every prefix resolvable anywhere on the stack together with the URI its scoped
lookup yields.  The implementation compiled into the head `c14n.go` driver is
not among the source files. -/
def GetAll (s : Stack) : List (String × String) :=
  (allKeys s).map (fun k => (k, (Get s k).getD ""))

end nsstack

/-- Byte-wise lexicographic comparison of character lists.  Models Go's `<` on
strings, which compares byte-wise; UTF-8 byte order agrees with code-point
order, so comparing `Char`s is faithful. -/
def charsLess : List Char → List Char → Bool
  | [], [] => false
  | [], _ :: _ => true
  | _ :: _, [] => false
  | c :: cs, d :: ds => if c < d then true else if d < c then false else charsLess cs ds

/-- Go's `<` on strings (byte-wise lexicographic). -/
def goLess (a b : String) : Bool := charsLess a.data b.data

open nsstack in
/-- Model of `SortAttr.Less` in `internal/sortattr/sortattr.go`, the c14n
document-order comparator over one element's attributes (namespace
pseudo-attributes included).  The stack argument is the namespace scope stack
used to resolve ordinary attributes' namespace tokens. -/
def SortAttrLess (s : Stack) (ai aj : Attr) : Bool :=
  if ai.Name.Space = "" ∧ ai.Name.Local = "xmlns" then true
  else if aj.Name.Space = "" ∧ aj.Name.Local = "xmlns" then false
  else if ai.Name.Space = "xmlns" ∧ aj.Name.Space ≠ "xmlns" then true
  else if ai.Name.Space ≠ "xmlns" ∧ aj.Name.Space = "xmlns" then false
  else if ai.Name.Space = "xmlns" ∧ aj.Name.Space = "xmlns" then
    goLess ai.Name.Local aj.Name.Local
  else
    let spaceI := (Get s ai.Name.Space).getD ""
    let spaceJ := (Get s aj.Name.Space).getD ""
    if spaceI ≠ spaceJ then goLess spaceI spaceJ
    else goLess ai.Name.Local aj.Name.Local

/-- Model of `bytes.ReplaceAll` specialised to the single-byte patterns used by
`c14n.go` (all seven escape triggers are single ASCII bytes, which can never be
a strict infix of a multi-byte UTF-8 character). -/
def replaceAll (s : List Char) (old : Char) (new : List Char) : List Char :=
  match s with
  | [] => []
  | c :: rest => (if c = old then new else [c]) ++ replaceAll rest old new

/-- Model of the attribute-value escaping chain in `c14n.go` (`amp`, `lt`,
`quot`, `tab`, `nl`, `cr` replaced in that order). -/
def escapeAttrValue (v : List Char) : List Char :=
  let v1 := replaceAll v '&' "&amp;".data
  let v2 := replaceAll v1 '<' "&lt;".data
  let v3 := replaceAll v2 '"' "&quot;".data
  let v4 := replaceAll v3 '\t' "&#x9;".data
  let v5 := replaceAll v4 '\n' "&#xA;".data
  replaceAll v5 '\r' "&#xD;".data

/-- Model of the text-content escaping chain in `c14n.go` (`amp`, `lt`, `gt`,
`cr` replaced in that order). -/
def escapeText (t : List Char) : List Char :=
  let t1 := replaceAll t '&' "&amp;".data
  let t2 := replaceAll t1 '<' "&lt;".data
  let t3 := replaceAll t2 '>' "&gt;".data
  replaceAll t3 '\r' "&#xD;".data

namespace c14n
open nsstack

/-- The qualified name as written by `c14n.go`: `space:local` when a namespace
token is present, bare `local` otherwise. -/
def qnameChars (n : Name) : List Char :=
  if n.Space = "" then n.Local.data else (n.Space ++ ":" ++ n.Local).data

/-- The `names` map built at a `StartElement`: the namespaces declared by this
element's attributes (a later declaration of the same token overwrites an
earlier one, as with Go map assignment — `lookupF` reads the head-most
binding). -/
def declaredNames (attrs : List Attr) : Frame :=
  attrs.foldl
    (fun f a => match getNamespace a with
      | some n => (n, a.Value) :: f
      | none => f) []

/-- The `visiblyUsedNames` set built at a `StartElement`: the element's own
namespace token plus the token of every non-namespace-declaring attribute. -/
def visiblyUsedNames (name : Name) (attrs : List Attr) : List String :=
  name.Space ::
    attrs.filterMap (fun a => match getNamespace a with
      | some _ => none
      | none => some a.Name.Space)

/-- The per-binding rendering decision of `c14n.go` for one `(name, uri)` pair
of `knownNames.GetAll()`: the `xmlns=""` special case, then the general
visibly-used / not-yet-rendered rule. -/
def shouldRender (visibly : List String) (names : Frame)
    (previousDefaultNamespace : String) (renderedNames : Stack)
    (name uri : String) : Bool :=
  if name = "" ∧ uri = "" then
    visibly.contains "" &&
      (match lookupF names "" with
        | none => true
        | some declaredValue => decide (declaredValue ≠ previousDefaultNamespace)) &&
      (Get renderedNames "").isSome
  else
    visibly.contains name &&
      (match Get renderedNames name with
        | none => true
        | some renderedValue => decide (renderedValue ≠ uri))

/-- The set `namesToRender` computed at a `StartElement` (as a list; the Go map
iteration order is unspecified and the set is only sorted downstream). The
declared names are pushed before the full resolved set is consulted. -/
def namesToRender (name : Name) (attrs : List Attr)
    (knownNames renderedNames : Stack) : List String :=
  let names := declaredNames attrs
  let kn := Push knownNames names
  ((GetAll kn).filter
      (fun p => shouldRender (visiblyUsedNames name attrs) names
        ((Get knownNames "").getD "") renderedNames p.1 p.2)).map Prod.fst

/-- The `renderedNameValues` frame pushed onto `renderedNames`: each selected
name with its resolved URI. -/
def renderedFrame (name : Name) (attrs : List Attr)
    (knownNames renderedNames : Stack) : Frame :=
  (namesToRender name attrs knownNames renderedNames).map
    (fun n => (n, (Get (Push knownNames (declaredNames attrs)) n).getD ""))

/-- The synthesized namespace pseudo-attribute for a selected name (`xmlns` for
the default namespace, `xmlns:name` otherwise). -/
def synthAttr (uri : String) (n : String) : Attr :=
  if n = "" then ⟨⟨"", "xmlns"⟩, uri⟩ else ⟨⟨"xmlns", n⟩, uri⟩

/-- `attrsToRender`: the retained ordinary attributes followed by the
synthesized namespace pseudo-attributes (order irrelevant — sorted next). -/
def attrsToRender (name : Name) (attrs : List Attr)
    (knownNames renderedNames : Stack) : List Attr :=
  let kn := Push knownNames (declaredNames attrs)
  attrs.filter (fun a => (getNamespace a).isNone) ++
    (namesToRender name attrs knownNames renderedNames).map
      (fun n => synthAttr ((Get kn n).getD "") n)

/-- Model of `sort.Sort(sortAttr)`: a deterministic comparison sort by
`SortAttrLess`.  `sort.Sort` fixes only that the result is sorted by `Less`;
the stable insertion sort fixes the order of tied elements, which ties down
behaviour Go leaves unspecified. -/
def sortAttrs (s : Stack) (attrs : List Attr) : List Attr :=
  List.insertionSort (fun a b => SortAttrLess s b a = false) attrs

/-- The serialized opening tag of a `StartElement`: `<` + qualified name, each
sorted attribute as ` name="escapedValue"`, then `>`. -/
def startTagOutput (name : Name) (attrs : List Attr)
    (knownNames renderedNames : Stack) : List Char :=
  let kn := Push knownNames (declaredNames attrs)
  let sorted := sortAttrs kn (attrsToRender name attrs knownNames renderedNames)
  '<' :: qnameChars name ++
    (sorted.foldr
      (fun a acc =>
        ' ' :: qnameChars a.Name ++ '=' :: '"' :: escapeAttrValue a.Value.data ++ '"' :: acc)
      []) ++ ['>']

/-- The serialized close tag of an `EndElement`. -/
def closeTagOutput (name : Name) : List Char :=
  '<' :: '/' :: qnameChars name ++ ['>']

/-- The serialized form of a non-`xml` processing instruction: `<?` + target,
a separating space only when the instruction body is non-empty, the body,
`?>`. -/
def procInstOutput (target inst : String) : List Char :=
  '<' :: '?' :: target.data ++
    (if inst.length > 0 then [' '] else []) ++ inst.data ++ ['?', '>']

/-- Result of one `RawToken()` call of the token source: a token or an error
(`GoError.eof` plays `io.EOF`; `RawToken` never returns both). -/
inductive GoError where
  | eof
  | unexpectedEOF
  | other (msg : String)
deriving DecidableEq, Repr

/-- One event delivered by the `RawTokenReader`. -/
inductive RawResult where
  | tok (t : Token)
  | err (e : GoError)
deriving DecidableEq, Repr

/-- The `([]byte, error)` pair returned by `Canonicalize` (`bytes = none`
models a `nil` byte slice). -/
structure GoReturn where
  bytes : Option (List Char)
  err : Option GoError
deriving DecidableEq, Repr

/-- Outcome of running the canonicalization loop: a Go-style return pair, or a
runtime panic (`crash`, carrying the output written before the panic) from the
out-of-bounds slice in `Stack.Pop`. -/
inductive RunResult where
  | ret (r : GoReturn)
  | crash (buf : List Char)
deriving DecidableEq, Repr

/-- Model of the main loop of `Canonicalize` in `c14n.go`.  The token source is
a finite list of `RawToken()` results; an exhausted list models the decoder's
graceful end-of-stream (`io.EOF`).  The `knownNames = []` test models the Go
`knownNames == nil` guard: the loop returns as soon as the stack empties, so
inside the loop an empty stack means no `StartElement` has been seen yet. -/
def canonLoop (knownNames renderedNames : Stack) (buf : List Char) :
    List RawResult → RunResult
  | [] => .ret ⟨none, some .unexpectedEOF⟩
  | .err .eof :: _ => .ret ⟨none, some .unexpectedEOF⟩
  | .err e :: _ => .ret ⟨none, some e⟩
  | .tok (.StartElement n a) :: rest =>
    canonLoop (Push knownNames (declaredNames a))
      (Push renderedNames (renderedFrame n a knownNames renderedNames))
      (buf ++ startTagOutput n a knownNames renderedNames) rest
  | .tok (.EndElement n) :: rest =>
    let buf2 := buf ++ closeTagOutput n
    match Pop knownNames with
    | none => .crash buf2
    | some kn2 =>
      match Pop renderedNames with
      | none => .crash buf2
      | some rn2 =>
        if Len kn2 = 0 then .ret ⟨some buf2, none⟩
        else canonLoop kn2 rn2 buf2 rest
  | .tok (.CharData s) :: rest =>
    if knownNames.isEmpty then canonLoop knownNames renderedNames buf rest
    else canonLoop knownNames renderedNames (buf ++ escapeText s.data) rest
  | .tok (.ProcInst target inst) :: rest =>
    if knownNames.isEmpty then canonLoop knownNames renderedNames buf rest
    else if target = "xml" then canonLoop knownNames renderedNames buf rest
    else canonLoop knownNames renderedNames (buf ++ procInstOutput target inst) rest

/-- Model of `Canonicalize`: run the loop from empty stacks and an empty
output buffer. -/
def Canonicalize (rs : List RawResult) : RunResult := canonLoop [] [] [] rs

end c14n

namespace stack

/-- Model of `entry` in `internal/stack/stack.go`: a declared URI together
with the used flag set by `Get`. -/
structure entry where
  value : String
  used : Bool
deriving DecidableEq, Repr

/-- One frame of the used-flag stack of `internal/stack/stack.go`. -/
abbrev FrameE := List (String × entry)

/-- Model of `Stack` in `internal/stack/stack.go` (the used-flag variant that
is in the source tree).  The innermost frame is the head of the list. -/
abbrev Stack := List FrameE

/-- Association-list lookup for used-flag frames (most recent binding wins,
mirroring Go map assignment). -/
def lookupE : FrameE → String → Option entry
  | [], _ => none
  | (k, v) :: rest, n => if k = n then some v else lookupE rest n

/-- Model of `Stack.Push`: a frame seeded from the given bindings, every entry
initially unused. -/
def Push (s : Stack) (names : List (String × String)) : Stack :=
  (names.map (fun p => (p.1, entry.mk p.2 false))) :: s

/-- Model of `Stack.Pop`: Go executes `*s = (*s)[:len(*s)-1]`, an out-of-bounds
slice expression on an empty stack (a runtime panic); `none` models that
panic. -/
def Pop : Stack → Option Stack
  | [] => none
  | _ :: rest => some rest

/-- Model of `Stack.Len`. -/
def Len (s : Stack) : Nat := s.length

/-- Replace the entry for a key with its used-flag set (first frame-local
binding; the key is known to be present when this is used). -/
def markUsed : FrameE → String → FrameE
  | [], _ => []
  | (k, v) :: rest, n =>
    if k = n then (k, entry.mk v.value true) :: rest else (k, v) :: markUsed rest n

/-- Model of `Stack.Get` in `internal/stack/stack.go`: scan from the innermost
frame outwards; on the first frame holding the name, set that entry's used
flag and return its value; otherwise return the empty string.  The result pairs
the returned value with the updated stack (Go mutates in place). -/
def Get : Stack → String → String × Stack
  | [], _ => ("", [])
  | f :: rest, name =>
    match lookupE f name with
    | some v => (v.value, markUsed f name :: rest)
    | none =>
      let (out, rest2) := Get rest name
      (out, f :: rest2)

/-- Model of `Stack.Used` in `internal/stack/stack.go`, read as a partial map:
Go builds a map by iterating every frame from the outermost to the innermost
and inserting each used entry, so the value recorded for a name is the used
entry of the innermost frame in which that name is marked used (frames where
the name is present but unused insert nothing and hide nothing). -/
def Used : Stack → String → Option String
  | [], _ => none
  | f :: rest, name =>
    match lookupE f name with
    | some e => if e.used then some e.value else Used rest name
    | none => Used rest name

/-- Following the spec sentence, for comparison with `Used`: only entries of
the current innermost frame whose used flag is set
(`usedInInnermostFrame`). -/
def usedInInnermostFrame : Stack → String → Option String
  | [], _ => none
  | f :: _, name =>
    match lookupE f name with
    | some e => if e.used then some e.value else none
    | none => none

end stack

/-! Specification-side definitions, stated from the claims' own words, to be
compared with the definitions translated from the source. -/

/-- Character-wise substitution: the spec's escaping model ("replaces exactly
these characters, no other character is altered"). -/
def escapeWith (tab : Char → List Char) : List Char → List Char
  | [] => []
  | c :: rest => tab c ++ escapeWith tab rest

/-- The spec's text-content escape table: `&`, `<`, `>`, carriage return. -/
def textEscChar (c : Char) : List Char :=
  if c = '&' then "&amp;".data
  else if c = '<' then "&lt;".data
  else if c = '>' then "&gt;".data
  else if c = '\r' then "&#xD;".data
  else [c]

/-- The spec's attribute-value escape table: `&`, `<`, `"`, tab, newline,
carriage return (`>` deliberately absent). -/
def attrEscChar (c : Char) : List Char :=
  if c = '&' then "&amp;".data
  else if c = '<' then "&lt;".data
  else if c = '"' then "&quot;".data
  else if c = '\t' then "&#x9;".data
  else if c = '\n' then "&#xA;".data
  else if c = '\r' then "&#xD;".data
  else [c]

/-- Whether an attribute is the default-namespace pseudo-attribute (`xmlns`
with no namespace token). -/
def isDefaultNS (a : Attr) : Bool := a.Name.Space = "" ∧ a.Name.Local = "xmlns"

/-- Whether an attribute is a non-default namespace pseudo-attribute
(namespace token `xmlns`). -/
def isNSAttr (a : Attr) : Bool := a.Name.Space = "xmlns"

/-- The claim's comparator, parametrised by the URI assigned to an ordinary
attribute: the default-namespace pseudo-attribute first, always; every other
namespace pseudo-attribute before every ordinary attribute; two namespace
pseudo-attributes by local name; two ordinary attributes primarily by URI,
secondarily by local name, byte-wise. -/
def specOrder (uriOf : Attr → String) (a b : Attr) : Bool :=
  if isDefaultNS a then true
  else if isDefaultNS b then false
  else if isNSAttr a then
    if isNSAttr b then goLess a.Name.Local b.Name.Local else true
  else if isNSAttr b then false
  else if uriOf a ≠ uriOf b then goLess (uriOf a) (uriOf b)
  else goLess a.Name.Local b.Name.Local

/-- The URI assignment claimed by C3: an empty or unresolved namespace token
yields the empty URI, otherwise the stack lookup. -/
def claimURI (s : nsstack.Stack) (a : Attr) : String :=
  if a.Name.Space = "" then "" else (nsstack.Get s a.Name.Space).getD ""

/-- The URI assignment the comparator actually uses: the stack lookup applied
uniformly to the attribute's namespace token (the empty token included),
unresolved tokens yielding the empty URI. -/
def codeURI (s : nsstack.Stack) (a : Attr) : String :=
  (nsstack.Get s a.Name.Space).getD ""

/-- Well-nested sequences of tokens in which every `EndElement` balances an
earlier `StartElement` of the same sequence (character data and processing
instructions may be interleaved; `c14n.go` never compares tag names, so the
balancing `EndElement`'s name is unconstrained). -/
inductive BalancedToks : List Token → Prop where
  | nil : BalancedToks []
  | chr (s : String) {ts : List Token} : BalancedToks ts → BalancedToks (.CharData s :: ts)
  | pi (t i : String) {ts : List Token} : BalancedToks ts → BalancedToks (.ProcInst t i :: ts)
  | elem (n : Name) (a : List Attr) (m : Name) {inner ts : List Token} :
      BalancedToks inner → BalancedToks ts →
      BalancedToks (.StartElement n a :: inner ++ .EndElement m :: ts)

/-! Lemmas about the escaper. -/

theorem replaceAll_append (xs ys : List Char) (o : Char) (n : List Char) :
    replaceAll (xs ++ ys) o n = replaceAll xs o n ++ replaceAll ys o n := by
  induction xs with
  | nil => rfl
  | cons c rest ih => simp [replaceAll, ih]

theorem escapeText_append (xs ys : List Char) :
    escapeText (xs ++ ys) = escapeText xs ++ escapeText ys := by
  simp [escapeText, replaceAll_append]

theorem escapeAttrValue_append (xs ys : List Char) :
    escapeAttrValue (xs ++ ys) = escapeAttrValue xs ++ escapeAttrValue ys := by
  simp [escapeAttrValue, replaceAll_append]

theorem escapeText_singleton (c : Char) : escapeText [c] = textEscChar c := by
  by_cases h1 : c = '&'
  · subst h1; rfl
  by_cases h2 : c = '<'
  · subst h2; rfl
  by_cases h3 : c = '>'
  · subst h3; rfl
  by_cases h4 : c = '\r'
  · subst h4; rfl
  simp [escapeText, replaceAll, textEscChar, h1, h2, h3, h4]

theorem escapeAttrValue_singleton (c : Char) : escapeAttrValue [c] = attrEscChar c := by
  by_cases h1 : c = '&'
  · subst h1; rfl
  by_cases h2 : c = '<'
  · subst h2; rfl
  by_cases h3 : c = '"'
  · subst h3; rfl
  by_cases h4 : c = '\t'
  · subst h4; rfl
  by_cases h5 : c = '\n'
  · subst h5; rfl
  by_cases h6 : c = '\r'
  · subst h6; rfl
  simp [escapeAttrValue, replaceAll, attrEscChar, h1, h2, h3, h4, h5, h6]

/-! Order-theoretic facts about the byte-wise comparison and the attribute
comparator, used for the sorting claims. -/

theorem charsLess_asymm : ∀ a b, charsLess a b = true → charsLess b a = false
  | [], [] => by simp [charsLess]
  | [], _ :: _ => fun _ => rfl
  | _ :: _, [] => by simp [charsLess]
  | c :: cs, d :: ds => by
    by_cases h1 : c < d
    · intro _
      rw [charsLess, if_neg (lt_asymm h1), if_pos h1]
    · by_cases h2 : d < c
      · intro h
        rw [charsLess, if_neg h1, if_pos h2] at h
        exact absurd h (by simp)
      · intro h
        rw [charsLess, if_neg h1, if_neg h2] at h
        rw [charsLess, if_neg h2, if_neg h1]
        exact charsLess_asymm cs ds h

theorem charsLess_eq_of_not : ∀ a b, charsLess a b = false → charsLess b a = false → a = b
  | [], [] => fun _ _ => rfl
  | [], _ :: _ => by simp [charsLess]
  | _ :: _, [] => by simp [charsLess]
  | c :: cs, d :: ds => by
    by_cases h1 : c < d
    · simp [charsLess, h1]
    · by_cases h2 : d < c
      · simp [charsLess, h1, h2]
      · intro ha hb
        rw [charsLess, if_neg h1, if_neg h2] at ha
        rw [charsLess, if_neg h2, if_neg h1] at hb
        have hcd : c = d := le_antisymm (le_of_not_lt h2) (le_of_not_lt h1)
        rw [hcd, charsLess_eq_of_not cs ds ha hb]

theorem charsLess_trans : ∀ a b c, charsLess a b = true → charsLess b c = true →
    charsLess a c = true
  | [], [], _ => by simp [charsLess]
  | [], _ :: _, [] => by simp [charsLess]
  | [], _ :: _, _ :: _ => fun _ _ => rfl
  | _ :: _, [], _ => by simp [charsLess]
  | _ :: _, _ :: _, [] => by simp [charsLess]
  | a :: as, b :: bs, c :: cs => by
    by_cases hab : a < b
    · by_cases hbc : b < c
      · intro _ _
        rw [charsLess, if_pos (lt_trans hab hbc)]
      · by_cases hcb : c < b
        · intro _ h2
          rw [charsLess, if_neg hbc, if_pos hcb] at h2
          exact absurd h2 (by simp)
        · have hbceq : b = c := le_antisymm (le_of_not_lt hcb) (le_of_not_lt hbc)
          subst hbceq
          intro _ _
          rw [charsLess, if_pos hab]
    · by_cases hba : b < a
      · intro h1
        rw [charsLess, if_neg hab, if_pos hba] at h1
        exact absurd h1 (by simp)
      · have habeq : a = b := le_antisymm (le_of_not_lt hba) (le_of_not_lt hab)
        subst habeq
        by_cases hac : a < c
        · intro _ _
          rw [charsLess, if_pos hac]
        · by_cases hca : c < a
          · intro _ h2
            rw [charsLess, if_neg hac, if_pos hca] at h2
            exact absurd h2 (by simp)
          · intro h1 h2
            rw [charsLess, if_neg hab, if_neg hab] at h1
            rw [charsLess, if_neg hac, if_neg hca] at h2
            rw [charsLess, if_neg hac, if_neg hca]
            exact charsLess_trans as bs cs h1 h2

theorem stringDataInj {a b : String} (h : a.data = b.data) : a = b := by
  cases a
  cases b
  exact congrArg String.mk (by simpa using h)

theorem goLess_asymm {a b : String} (h : goLess a b = true) : goLess b a = false :=
  charsLess_asymm a.data b.data h

theorem goLess_eq_of_not {a b : String} (h1 : goLess a b = false)
    (h2 : goLess b a = false) : a = b :=
  stringDataInj (charsLess_eq_of_not a.data b.data h1 h2)

theorem goLess_trans {a b c : String} (h1 : goLess a b = true)
    (h2 : goLess b c = true) : goLess a c = true :=
  charsLess_trans a.data b.data c.data h1 h2

/-- Sort key of a non-default attribute: a category (namespace pseudo-attribute
before ordinary), then a URI component (empty for namespace
pseudo-attributes), then the local name. -/
def attrSortKey (u : Attr → String) (x : Attr) : Nat × String × String :=
  (if isNSAttr x then 1 else 2, (if isNSAttr x then "" else u x), x.Name.Local)

/-- Lexicographic comparison of sort keys. -/
def keyLess (x y : Nat × String × String) : Bool :=
  if x.1 ≠ y.1 then decide (x.1 < y.1)
  else if x.2.1 ≠ y.2.1 then goLess x.2.1 y.2.1
  else goLess x.2.2 y.2.2

theorem keyLess_asymm {x y : Nat × String × String} (h : keyLess x y = true) :
    keyLess y x = false := by
  obtain ⟨x1, x2, x3⟩ := x
  obtain ⟨y1, y2, y3⟩ := y
  unfold keyLess at h ⊢
  dsimp only at h ⊢
  by_cases h1 : x1 = y1
  · subst h1
    rw [if_neg (by simp)] at h ⊢
    by_cases h2 : x2 = y2
    · subst h2
      rw [if_neg (by simp)] at h ⊢
      exact goLess_asymm h
    · rw [if_pos h2] at h
      rw [if_pos (fun hc => h2 hc.symm)]
      exact goLess_asymm h
  · rw [if_pos h1] at h
    rw [if_pos (fun hc => h1 hc.symm)]
    simp only [decide_eq_true_eq] at h
    simp [Nat.lt_asymm h]

theorem keyLess_eq_of_not {x y : Nat × String × String} (h1 : keyLess x y = false)
    (h2 : keyLess y x = false) : x = y := by
  obtain ⟨x1, x2, x3⟩ := x
  obtain ⟨y1, y2, y3⟩ := y
  unfold keyLess at h1 h2
  dsimp only at h1 h2
  by_cases hn : x1 = y1
  · subst hn
    rw [if_neg (by simp)] at h1 h2
    by_cases hu : x2 = y2
    · subst hu
      rw [if_neg (by simp)] at h1 h2
      have hl : x3 = y3 := goLess_eq_of_not h1 h2
      rw [hl]
    · rw [if_pos hu] at h1
      rw [if_pos (fun hc => hu hc.symm)] at h2
      exact absurd (goLess_eq_of_not h1 h2) hu
  · rw [if_pos hn] at h1
    rw [if_pos (fun hc => hn hc.symm)] at h2
    simp only [decide_eq_false_iff_not, Nat.not_lt] at h1 h2
    exact absurd (Nat.le_antisymm h2 h1) hn

theorem keyLess_trans {x y z : Nat × String × String} (h1 : keyLess x y = true)
    (h2 : keyLess y z = true) : keyLess x z = true := by
  obtain ⟨x1, x2, x3⟩ := x
  obtain ⟨y1, y2, y3⟩ := y
  obtain ⟨z1, z2, z3⟩ := z
  unfold keyLess at h1 h2 ⊢
  dsimp only at h1 h2 ⊢
  by_cases hxy : x1 = y1
  · subst hxy
    rw [if_neg (by simp)] at h1
    by_cases hyz : x1 = z1
    · subst hyz
      rw [if_neg (by simp)] at h2 ⊢
      by_cases huxy : x2 = y2
      · subst huxy
        rw [if_neg (by simp)] at h1
        by_cases huyz : x2 = z2
        · subst huyz
          rw [if_neg (by simp)] at h2 ⊢
          exact goLess_trans h1 h2
        · rw [if_pos huyz] at h2
          rw [if_pos huyz]
          exact h2
      · rw [if_pos huxy] at h1
        by_cases huyz : y2 = z2
        · subst huyz
          rw [if_pos huxy]
          exact h1
        · rw [if_pos huyz] at h2
          by_cases huxz : x2 = z2
          · have hyx : goLess y2 x2 = true := by rw [huxz]; exact h2
            have hfa := goLess_asymm h1
            simp [hyx] at hfa
          · rw [if_pos huxz]
            exact goLess_trans h1 h2
    · rw [if_pos hyz] at h2
      rw [if_pos hyz]
      exact h2
  · rw [if_pos hxy] at h1
    by_cases hyz : y1 = z1
    · subst hyz
      rw [if_pos hxy]
      exact h1
    · rw [if_pos hyz] at h2
      simp only [decide_eq_true_eq] at h1 h2
      have hlt := Nat.lt_trans h1 h2
      rw [if_pos (Nat.ne_of_lt hlt)]
      simp [hlt]

theorem keyLess_negtrans {x y z : Nat × String × String} (h1 : keyLess z y = false)
    (h2 : keyLess y x = false) : keyLess z x = false := by
  by_cases hyz : keyLess y z = true
  · cases hzx : keyLess z x with
    | false => rfl
    | true => exact absurd (keyLess_trans hyz hzx) (by simp [h2])
  · have hzy : z = y := keyLess_eq_of_not h1 (by simpa using hyz)
    rw [hzy]
    exact h2

theorem specOrder_eq_keyLess (u : Attr → String) (a b : Attr)
    (ha : isDefaultNS a = false) (hb : isDefaultNS b = false) :
    specOrder u a b = keyLess (attrSortKey u a) (attrSortKey u b) := by
  by_cases hna : isNSAttr a = true
  · by_cases hnb : isNSAttr b = true
    · simp [specOrder, keyLess, attrSortKey, ha, hb, hna, hnb]
    · simp [specOrder, keyLess, attrSortKey, ha, hb, hna, hnb]
  · by_cases hnb : isNSAttr b = true
    · simp [specOrder, keyLess, attrSortKey, ha, hb, hna, hnb]
    · simp [specOrder, keyLess, attrSortKey, ha, hb, hna, hnb]

theorem sortAttrLess_spec (s : nsstack.Stack) (a b : Attr) :
    SortAttrLess s a b = specOrder (codeURI s) a b := by
  by_cases hda : a.Name.Space = "" ∧ a.Name.Local = "xmlns"
  · simp [SortAttrLess, specOrder, isDefaultNS, hda]
  · by_cases hdb : b.Name.Space = "" ∧ b.Name.Local = "xmlns"
    · simp [SortAttrLess, specOrder, isDefaultNS, hda, hdb]
    · by_cases hna : a.Name.Space = "xmlns"
      · by_cases hnb : b.Name.Space = "xmlns"
        · simp [SortAttrLess, specOrder, isDefaultNS, isNSAttr, hda, hdb, hna, hnb]
        · simp [SortAttrLess, specOrder, isDefaultNS, isNSAttr, hda, hdb, hna, hnb]
      · by_cases hnb : b.Name.Space = "xmlns"
        · simp [SortAttrLess, specOrder, isDefaultNS, isNSAttr, hda, hdb, hna, hnb]
        · simp [SortAttrLess, specOrder, isDefaultNS, isNSAttr, codeURI, hda, hdb, hna, hnb]

theorem specOrder_asymm (u : Attr → String) (a b : Attr)
    (h : ¬(isDefaultNS a = true ∧ isDefaultNS b = true)) :
    specOrder u a b = true → specOrder u b a = false := by
  intro ht
  by_cases hda : isDefaultNS a = true
  · have hdb : ¬ isDefaultNS b = true := fun hb => h ⟨hda, hb⟩
    rw [specOrder, if_neg hdb, if_pos hda]
  · by_cases hdb : isDefaultNS b = true
    · rw [specOrder, if_neg hda, if_pos hdb] at ht
      exact absurd ht (by simp)
    · have e1 := specOrder_eq_keyLess u a b (by simpa using hda) (by simpa using hdb)
      have e2 := specOrder_eq_keyLess u b a (by simpa using hdb) (by simpa using hda)
      rw [e2]
      rw [e1] at ht
      exact keyLess_asymm ht

theorem specOrder_negtrans (u : Attr → String) (a b c : Attr)
    (h1 : specOrder u c b = false) (h2 : specOrder u b a = false) :
    specOrder u c a = false := by
  by_cases hdc : isDefaultNS c = true
  · rw [specOrder, if_pos hdc] at h1
    exact absurd h1 (by simp)
  · by_cases hda : isDefaultNS a = true
    · rw [specOrder, if_neg hdc, if_pos hda]
    · by_cases hdb : isDefaultNS b = true
      · rw [specOrder, if_pos hdb] at h2
        exact absurd h2 (by simp)
      · have e1 := specOrder_eq_keyLess u c b (by simpa using hdc) (by simpa using hdb)
        have e2 := specOrder_eq_keyLess u b a (by simpa using hdb) (by simpa using hda)
        have e3 := specOrder_eq_keyLess u c a (by simpa using hdc) (by simpa using hda)
        rw [e1] at h1
        rw [e2] at h2
        rw [e3]
        exact keyLess_negtrans h1 h2

theorem sal_asymm (s : nsstack.Stack) (a b : Attr)
    (h : ¬(isDefaultNS a = true ∧ isDefaultNS b = true)) :
    SortAttrLess s a b = true → SortAttrLess s b a = false := by
  rw [sortAttrLess_spec, sortAttrLess_spec]
  exact specOrder_asymm _ a b h

theorem sal_negtrans (s : nsstack.Stack) (a b c : Attr)
    (h1 : SortAttrLess s c b = false) (h2 : SortAttrLess s b a = false) :
    SortAttrLess s c a = false := by
  rw [sortAttrLess_spec] at h1 h2 ⊢
  exact specOrder_negtrans _ a b c h1 h2

theorem sal_default (s : nsstack.Stack) (d x : Attr) (h : isDefaultNS d = true) :
    SortAttrLess s d x = true := by
  have hd : d.Name.Space = "" ∧ d.Name.Local = "xmlns" := by
    simpa [isDefaultNS] using h
  rw [SortAttrLess, if_pos hd]

theorem orderedInsert_pairwise (s : nsstack.Stack) (a : Attr) :
    ∀ l : List Attr,
      (∀ y ∈ l, (SortAttrLess s a y = true → SortAttrLess s y a = false) ∧
                (SortAttrLess s y a = true → SortAttrLess s a y = false)) →
      l.Pairwise (fun x y => SortAttrLess s y x = false) →
      (l.orderedInsert (fun x y => SortAttrLess s y x = false) a).Pairwise
        (fun x y => SortAttrLess s y x = false) := by
  intro l
  induction l with
  | nil =>
    intro _ _
    simp [List.orderedInsert]
  | cons b t ih =>
    intro hasym hpw
    rw [List.orderedInsert]
    by_cases hr : SortAttrLess s b a = false
    · rw [if_pos hr]
      refine List.Pairwise.cons ?_ hpw
      intro y hy
      rcases List.mem_cons.mp hy with rfl | hyt
      · exact hr
      · have hyb : SortAttrLess s y b = false := (List.pairwise_cons.mp hpw).1 y hyt
        exact sal_negtrans s a b y hyb hr
    · rw [if_neg hr]
      have hba : SortAttrLess s b a = true := by
        simpa using hr
      refine List.Pairwise.cons ?_
        (ih (fun y hy => hasym y (List.mem_cons_of_mem _ hy)) (List.pairwise_cons.mp hpw).2)
      intro y hy
      rcases (List.mem_orderedInsert _).mp hy with rfl | hyt
      · exact (hasym b (List.mem_cons_self _ _)).2 hba
      · exact (List.pairwise_cons.mp hpw).1 y hyt

theorem insertionSort_pairwise (s : nsstack.Stack) (l : List Attr)
    (hpw : l.Pairwise (fun x y => ¬(isDefaultNS x = true ∧ isDefaultNS y = true))) :
    (l.insertionSort (fun x y => SortAttrLess s y x = false)).Pairwise
      (fun x y => SortAttrLess s y x = false) := by
  induction l with
  | nil => simp [List.insertionSort]
  | cons a t ih =>
    rw [List.insertionSort]
    apply orderedInsert_pairwise
    · intro y hy
      have hyt : y ∈ t := (List.mem_insertionSort _).mp hy
      have hnd : ¬(isDefaultNS a = true ∧ isDefaultNS y = true) :=
        (List.pairwise_cons.mp hpw).1 y hyt
      exact ⟨sal_asymm s a y hnd, sal_asymm s y a (fun hc => hnd ⟨hc.2, hc.1⟩)⟩
    · exact ih (List.pairwise_cons.mp hpw).2

/-- The qualified name of an attribute, as a pair. -/
def attrQName (a : Attr) : String × String := (a.Name.Space, a.Name.Local)

theorem nodup_pairwise_nondefault {l : List Attr}
    (h : (l.map attrQName).Nodup) :
    l.Pairwise (fun x y => ¬(isDefaultNS x = true ∧ isDefaultNS y = true)) := by
  have hp : l.Pairwise (fun x y => attrQName x ≠ attrQName y) := by
    rw [List.Nodup, List.pairwise_map] at h
    exact h
  refine hp.imp ?_
  intro x y hxy hc
  apply hxy
  have hx : x.Name.Space = "" ∧ x.Name.Local = "xmlns" := by simpa [isDefaultNS] using hc.1
  have hy : y.Name.Space = "" ∧ y.Name.Local = "xmlns" := by simpa [isDefaultNS] using hc.2
  simp [attrQName, hx.1, hx.2, hy.1, hy.2]

/-- C3 counterexample: the comparator does not realize the claimed order.  On
a stack where the default namespace resolves to `"u"`, an ordinary attribute
with an empty namespace token is compared by the URI `"u"` (the stack lookup of
the empty token), not by the empty URI the claim assigns it: against an
ordinary attribute with an unresolved token, the code answers `false` where
the claimed order answers `true`. -/
theorem claim_C3_counterexample :
    ¬ (SortAttrLess [[("", "u")]] ⟨⟨"", "a"⟩, "v"⟩ ⟨⟨"x", "b"⟩, "w"⟩ =
       specOrder (claimURI [[("", "u")]]) ⟨⟨"", "a"⟩, "v"⟩ ⟨⟨"x", "b"⟩, "w"⟩) := by
  decide

/-- C3 (amended): `SortAttr.Less` realizes exactly the claimed order with one
change — the primary key of an ordinary attribute is the namespace scope
stack's lookup of its namespace token applied uniformly (the empty token
included, so it resolves to the default namespace when one is in scope), with
unresolved tokens yielding the empty URI. -/
theorem claim_C3_comparator :
    ∀ (s : nsstack.Stack) (a b : Attr),
      SortAttrLess s a b = specOrder (codeURI s) a b :=
  sortAttrLess_spec

/-- C8: sorting one element's attribute list (no duplicate qualified names)
with the `SortAttr` comparator is deterministic — re-sorting the sorted list
leaves it unchanged — and whenever the default-namespace pseudo-attribute is
present it ends up in the first position. -/
theorem claim_C8_sort_determinism :
    ∀ (s : nsstack.Stack) (l : List Attr),
      (l.map attrQName).Nodup →
      (c14n.sortAttrs s (c14n.sortAttrs s l) = c14n.sortAttrs s l ∧
        ∀ d ∈ l, isDefaultNS d = true → (c14n.sortAttrs s l).head? = some d) := by
  intro s l hnd
  have hpw := nodup_pairwise_nondefault hnd
  have hsorted : (c14n.sortAttrs s l).Pairwise (fun x y => SortAttrLess s y x = false) :=
    insertionSort_pairwise s l hpw
  constructor
  · exact List.Sorted.insertionSort_eq hsorted
  · intro d hd hdd
    have hmem : d ∈ c14n.sortAttrs s l := (List.mem_insertionSort _).mpr hd
    cases hs : c14n.sortAttrs s l with
    | nil =>
      rw [hs] at hmem
      simp at hmem
    | cons hd0 tl =>
      rw [hs] at hmem hsorted
      rcases List.mem_cons.mp hmem with rfl | hdtl
      · rfl
      · exfalso
        have hfalse : SortAttrLess s d hd0 = false :=
          (List.pairwise_cons.mp hsorted).1 d hdtl
        have htrue := sal_default s d hd0 hdd
        simp [htrue] at hfalse

/-- Witness for C8 at a concrete attribute list containing the
default-namespace pseudo-attribute. -/
theorem claim_C8_sort_determinism_witness :
    (([⟨⟨"", "q"⟩, "1"⟩, ⟨⟨"", "xmlns"⟩, "u"⟩] : List Attr).map attrQName).Nodup ∧
    (c14n.sortAttrs [] (c14n.sortAttrs [] [⟨⟨"", "q"⟩, "1"⟩, ⟨⟨"", "xmlns"⟩, "u"⟩]) =
      c14n.sortAttrs [] [⟨⟨"", "q"⟩, "1"⟩, ⟨⟨"", "xmlns"⟩, "u"⟩] ∧
      ∀ d ∈ ([⟨⟨"", "q"⟩, "1"⟩, ⟨⟨"", "xmlns"⟩, "u"⟩] : List Attr), isDefaultNS d = true →
        (c14n.sortAttrs [] [⟨⟨"", "q"⟩, "1"⟩, ⟨⟨"", "xmlns"⟩, "u"⟩]).head? = some d) :=
  ⟨by decide, claim_C8_sort_determinism [] _ (by decide)⟩

/-! Lemmas about the namespace-rendering decision at a `StartElement`. -/

theorem contains_iff_mem_str (l : List String) (a : String) :
    l.contains a = true ↔ a ∈ l := by
  simp [List.contains]

theorem lookupF_isSome_iff (f : nsstack.Frame) (P : String) :
    (nsstack.lookupF f P).isSome = true ↔ P ∈ f.map Prod.fst := by
  induction f with
  | nil => simp [nsstack.lookupF]
  | cons kv rest ih =>
    obtain ⟨k, v⟩ := kv
    by_cases h : k = P
    · subst h
      simp [nsstack.lookupF]
    · simp only [nsstack.lookupF, if_neg h, List.map_cons, List.mem_cons, ih]
      constructor
      · intro hh
        exact Or.inr hh
      · rintro (hh | hh)
        · exact absurd hh.symm h
        · exact hh

theorem get_isSome_iff (s : nsstack.Stack) (P : String) :
    (nsstack.Get s P).isSome = true ↔ ∃ f ∈ s, (nsstack.lookupF f P).isSome = true := by
  induction s with
  | nil => simp [nsstack.Get]
  | cons f rest ih =>
    cases h : nsstack.lookupF f P with
    | some v =>
      simp only [nsstack.Get, h, Option.isSome_some, true_iff]
      exact ⟨f, List.mem_cons_self _ _, by simp [h]⟩
    | none =>
      simp only [nsstack.Get, h, ih]
      constructor
      · rintro ⟨g, hg, hgl⟩
        exact ⟨g, List.mem_cons_of_mem _ hg, hgl⟩
      · rintro ⟨g, hg, hgl⟩
        rcases List.mem_cons.mp hg with rfl | hgr
        · rw [h] at hgl
          exact absurd hgl (by simp)
        · exact ⟨g, hgr, hgl⟩

theorem mem_keysRaw (s : nsstack.Stack) (P : String) :
    P ∈ s.foldr (fun f acc => f.map Prod.fst ++ acc) [] ↔
      ∃ f ∈ s, P ∈ f.map Prod.fst := by
  induction s with
  | nil => simp
  | cons f rest ih =>
    simp only [List.foldr_cons, List.mem_append, ih]
    constructor
    · rintro (h | ⟨g, hg, hgm⟩)
      · exact ⟨f, List.mem_cons_self _ _, h⟩
      · exact ⟨g, List.mem_cons_of_mem _ hg, hgm⟩
    · rintro ⟨g, hg, hgm⟩
      rcases List.mem_cons.mp hg with rfl | hgr
      · exact Or.inl hgm
      · exact Or.inr ⟨g, hgr, hgm⟩

theorem mem_allKeys_iff (s : nsstack.Stack) (P : String) :
    P ∈ nsstack.allKeys s ↔ (nsstack.Get s P).isSome = true := by
  unfold nsstack.allKeys
  rw [List.mem_dedup, mem_keysRaw, get_isSome_iff]
  exact exists_congr fun f =>
    and_congr_right fun _ => (lookupF_isSome_iff f P).symm

theorem mem_namesToRender_iff (name : Name) (attrs : List Attr)
    (kn rn : nsstack.Stack) (P : String) :
    P ∈ c14n.namesToRender name attrs kn rn ↔
      ((nsstack.Get (nsstack.Push kn (c14n.declaredNames attrs)) P).isSome = true ∧
        c14n.shouldRender (c14n.visiblyUsedNames name attrs) (c14n.declaredNames attrs)
          ((nsstack.Get kn "").getD "") rn P
          ((nsstack.Get (nsstack.Push kn (c14n.declaredNames attrs)) P).getD "") = true) := by
  unfold c14n.namesToRender nsstack.GetAll
  simp only [List.mem_map, List.mem_filter]
  constructor
  · rintro ⟨p, ⟨hmem, hpred⟩, hfst⟩
    obtain ⟨k, hk, hpk⟩ := hmem
    subst hpk
    simp only at hfst
    subst hfst
    exact ⟨(mem_allKeys_iff _ _).mp hk, hpred⟩
  · rintro ⟨hsome, hpred⟩
    refine ⟨(P, (nsstack.Get (nsstack.Push kn (c14n.declaredNames attrs)) P).getD ""),
      ⟨⟨P, (mem_allKeys_iff _ _).mpr hsome, rfl⟩, hpred⟩, rfl⟩

theorem mem_visibly_iff (name : Name) (attrs : List Attr) (P : String) :
    P ∈ c14n.visiblyUsedNames name attrs ↔
      (P = name.Space ∨ ∃ a ∈ attrs, getNamespace a = none ∧ a.Name.Space = P) := by
  unfold c14n.visiblyUsedNames
  simp only [List.mem_cons, List.mem_filterMap]
  apply or_congr Iff.rfl
  constructor
  · rintro ⟨a, ha, hm⟩
    cases hg : getNamespace a with
    | some v =>
      rw [hg] at hm
      exact absurd hm (by simp)
    | none =>
      rw [hg] at hm
      simp only [Option.some_inj] at hm
      exact ⟨a, ha, hg, hm⟩
  · rintro ⟨a, ha, hg, hsp⟩
    refine ⟨a, ha, ?_⟩
    rw [hg]
    simpa using hsp

/-- C1: for every prefix `P` resolvable anywhere on the namespace scope stack
after this element's declarations are pushed (resolving to `U`, the
`xmlns=""` special case excluded), `P` is selected for rendering iff `P` is
visibly used by this element (its own qualifying token, or the token of one of
its non-namespace-declaring attributes) and `P` has either never been rendered
on the rendered-names stack or was last rendered with a different value. -/
theorem claim_C1_general_render_rule :
    ∀ (name : Name) (attrs : List Attr) (kn rn : nsstack.Stack) (P U : String),
      nsstack.Get (nsstack.Push kn (c14n.declaredNames attrs)) P = some U →
      ¬(P = "" ∧ U = "") →
      (P ∈ c14n.namesToRender name attrs kn rn ↔
        ((P = name.Space ∨ ∃ a ∈ attrs, getNamespace a = none ∧ a.Name.Space = P) ∧
          (nsstack.Get rn P = none ∨ ∃ V, nsstack.Get rn P = some V ∧ V ≠ U))) := by
  intro name attrs kn rn P U hget hne
  rw [mem_namesToRender_iff, hget]
  simp only [Option.isSome_some, Option.getD_some, true_and]
  rw [c14n.shouldRender, if_neg hne]
  cases hr : nsstack.Get rn P with
  | none =>
    simp [contains_iff_mem_str, mem_visibly_iff]
  | some V0 =>
    simp [contains_iff_mem_str, mem_visibly_iff]

/-- Witness for C1: with `xmlns:x="u"` declared on the element, the prefix `x`
resolves to `u`, is visibly used by the element's own name, was never rendered,
and is selected for rendering. -/
theorem claim_C1_general_render_rule_witness :
    (nsstack.Get (nsstack.Push []
        (c14n.declaredNames [⟨⟨"xmlns", "x"⟩, "u"⟩])) "x" = some "u" ∧
      ¬(("x" : String) = "" ∧ ("u" : String) = "")) ∧
    ("x" ∈ c14n.namesToRender ⟨"x", "e"⟩ [⟨⟨"xmlns", "x"⟩, "u"⟩] [] [] ↔
      ((("x" : String) = "x" ∨
          ∃ a ∈ [(⟨⟨"xmlns", "x"⟩, "u"⟩ : Attr)], getNamespace a = none ∧ a.Name.Space = "x") ∧
        (nsstack.Get [] "x" = none ∨ ∃ V, nsstack.Get [] "x" = some V ∧ V ≠ "u"))) :=
  ⟨⟨by decide, by decide⟩,
    claim_C1_general_render_rule ⟨"x", "e"⟩ [⟨⟨"xmlns", "x"⟩, "u"⟩] [] [] "x" "u"
      (by decide) (by decide)⟩

/-- C2: when the empty prefix resolves to the empty URI after the push (no
default namespace in effect), `xmlns=""` is selected iff the empty prefix is
visibly used, the element either did not itself declare a default namespace or
declared a value differing from the default in effect just before the push,
and the empty prefix was already rendered by an ancestor.  In particular an
element cancelling a visibly-used ancestor default namespace renders
`xmlns=""`. -/
theorem claim_C2_default_namespace :
    (∀ (name : Name) (attrs : List Attr) (kn rn : nsstack.Stack),
      nsstack.Get (nsstack.Push kn (c14n.declaredNames attrs)) "" = some "" →
      ("" ∈ c14n.namesToRender name attrs kn rn ↔
        ((("" : String) = name.Space ∨
            ∃ a ∈ attrs, getNamespace a = none ∧ a.Name.Space = "") ∧
          (nsstack.lookupF (c14n.declaredNames attrs) "" = none ∨
            ∃ v, nsstack.lookupF (c14n.declaredNames attrs) "" = some v ∧
              v ≠ (nsstack.Get kn "").getD "") ∧
          (∃ v, nsstack.Get rn "" = some v)))) ∧
    c14n.Canonicalize [
        .tok (.StartElement ⟨"", "a"⟩ [⟨⟨"", "xmlns"⟩, "u"⟩]),
        .tok (.StartElement ⟨"", "b"⟩ [⟨⟨"", "xmlns"⟩, ""⟩]),
        .tok (.EndElement ⟨"", "b"⟩),
        .tok (.EndElement ⟨"", "a"⟩)] =
      .ret ⟨some "<a xmlns=\"u\"><b xmlns=\"\"></b></a>".data, none⟩ := by
  constructor
  · intro name attrs kn rn hget
    rw [mem_namesToRender_iff, hget]
    simp only [Option.isSome_some, Option.getD_some, true_and]
    rw [c14n.shouldRender, if_pos ⟨rfl, rfl⟩]
    cases hd : nsstack.lookupF (c14n.declaredNames attrs) "" with
    | none =>
      cases hr : nsstack.Get rn "" with
      | none => simp [contains_iff_mem_str, mem_visibly_iff, hr]
      | some v => simp [contains_iff_mem_str, mem_visibly_iff, hr]
    | some dv =>
      cases hr : nsstack.Get rn "" with
      | none => simp [contains_iff_mem_str, mem_visibly_iff, hr]
      | some v => simp [contains_iff_mem_str, mem_visibly_iff, hr]
  · decide

/-- Witness for the general part of C2: an element declaring `xmlns=""` under
an ancestor default namespace `"u"` that was rendered. -/
theorem claim_C2_default_namespace_witness :
    nsstack.Get (nsstack.Push [[("", "u")]]
      (c14n.declaredNames [⟨⟨"", "xmlns"⟩, ""⟩])) "" = some "" ∧
    ("" ∈ c14n.namesToRender ⟨"", "b"⟩ [⟨⟨"", "xmlns"⟩, ""⟩] [[("", "u")]] [[("", "u")]] ↔
      ((("" : String) = (⟨"", "b"⟩ : Name).Space ∨
          ∃ a ∈ [(⟨⟨"", "xmlns"⟩, ""⟩ : Attr)], getNamespace a = none ∧ a.Name.Space = "") ∧
        (nsstack.lookupF (c14n.declaredNames [⟨⟨"", "xmlns"⟩, ""⟩]) "" = none ∨
          ∃ v, nsstack.lookupF (c14n.declaredNames [⟨⟨"", "xmlns"⟩, ""⟩]) "" = some v ∧
            v ≠ (nsstack.Get [[("", "u")]] "").getD "") ∧
        (∃ v, nsstack.Get [[("", "u")]] "" = some v))) :=
  ⟨by decide,
    claim_C2_default_namespace.1 ⟨"", "b"⟩ [⟨⟨"", "xmlns"⟩, ""⟩] [[("", "u")]]
      [[("", "u")]] (by decide)⟩

/-! Lemmas about the loop's error handling and pre-root behaviour. -/

theorem canonLoop_ret_err_bytes (rs : List c14n.RawResult) :
    ∀ kn rn buf gr, c14n.canonLoop kn rn buf rs = .ret gr → gr.err ≠ none →
      gr.bytes = none := by
  induction rs with
  | nil =>
    intro kn rn buf gr h _
    simp [c14n.canonLoop] at h
    simp [← h]
  | cons r rest ih =>
    intro kn rn buf gr h herr
    cases r with
    | err e =>
      cases e <;> simp [c14n.canonLoop] at h <;> simp [← h]
    | tok t =>
      cases t with
      | StartElement n a =>
        exact ih _ _ _ _ h herr
      | EndElement n =>
        cases kn with
        | nil => simp [c14n.canonLoop, nsstack.Pop] at h
        | cons f kt =>
          cases rn with
          | nil => simp [c14n.canonLoop, nsstack.Pop] at h
          | cons g rt =>
            simp only [c14n.canonLoop, nsstack.Pop] at h
            by_cases hlen : nsstack.Len kt = 0
            · rw [if_pos hlen] at h
              cases h
              simp at herr
            · rw [if_neg hlen] at h
              exact ih _ _ _ _ h herr
      | CharData s =>
        by_cases hk : kn.isEmpty
        · rw [c14n.canonLoop, if_pos hk] at h
          exact ih _ _ _ _ h herr
        · rw [c14n.canonLoop, if_neg hk] at h
          exact ih _ _ _ _ h herr
      | ProcInst tg i =>
        by_cases hk : kn.isEmpty
        · rw [c14n.canonLoop, if_pos hk] at h
          exact ih _ _ _ _ h herr
        · rw [c14n.canonLoop, if_neg hk] at h
          by_cases hx : tg = "xml"
          · rw [if_pos hx] at h
            exact ih _ _ _ _ h herr
          · rw [if_neg hx] at h
            exact ih _ _ _ _ h herr

/-- C6: a graceful end of the token stream (`io.EOF`, or exhaustion of the
source) while the loop is still running yields the distinct
`unexpectedEOF` error — in particular an input consisting of a single
processing instruction and no element; any other source error is returned to
the caller unchanged; and every error return carries `nil` bytes, never
partial output. -/
theorem claim_C6_error_handling :
    (∀ target inst, c14n.Canonicalize [.tok (.ProcInst target inst)] =
      .ret ⟨none, some .unexpectedEOF⟩) ∧
    (∀ kn rn buf rest, c14n.canonLoop kn rn buf (.err .eof :: rest) =
      .ret ⟨none, some .unexpectedEOF⟩) ∧
    (∀ kn rn buf, c14n.canonLoop kn rn buf [] = .ret ⟨none, some .unexpectedEOF⟩) ∧
    (∀ kn rn buf rest e, e ≠ c14n.GoError.eof →
      c14n.canonLoop kn rn buf (.err e :: rest) = .ret ⟨none, some e⟩) ∧
    (∀ rs gr, c14n.Canonicalize rs = .ret gr → gr.err ≠ none → gr.bytes = none) := by
  refine ⟨?_, ?_, ?_, ?_, ?_⟩
  · intro target inst
    simp [c14n.Canonicalize, c14n.canonLoop, List.isEmpty]
  · intro kn rn buf rest
    rfl
  · intro kn rn buf
    rfl
  · intro kn rn buf rest e he
    cases e with
    | eof => exact absurd rfl he
    | unexpectedEOF => rfl
    | other m => rfl
  · intro rs gr h herr
    exact canonLoop_ret_err_bytes rs _ _ _ _ h herr

/-- Witness for C6 at concrete inputs. -/
theorem claim_C6_error_handling_witness :
    c14n.canonLoop [] [] [] [.err (.other "io failure")] =
      .ret ⟨none, some (.other "io failure")⟩ ∧
    ((c14n.GoReturn.mk none (some .unexpectedEOF)).err ≠ none →
      (c14n.GoReturn.mk none (some .unexpectedEOF)).bytes = none) :=
  ⟨claim_C6_error_handling.2.2.2.1 [] [] [] [] (.other "io failure") (by decide),
   fun h => claim_C6_error_handling.2.2.2.2 [.tok (.ProcInst "a" "b")] _ (by rfl) h⟩

/-- C9: character data and processing instructions arriving before the first
`StartElement` produce no output (and do not change the loop state); after the
first `StartElement`, a processing instruction whose target is exactly `xml`
is omitted, and any other is emitted as `<?` + target, a single space and the
instruction bytes only when those are non-empty, then `?>`. -/
theorem claim_C9_chardata_procinst :
    (∀ rn buf s rest, c14n.canonLoop [] rn buf (.tok (.CharData s) :: rest) =
      c14n.canonLoop [] rn buf rest) ∧
    (∀ rn buf t i rest, c14n.canonLoop [] rn buf (.tok (.ProcInst t i) :: rest) =
      c14n.canonLoop [] rn buf rest) ∧
    (∀ kn rn buf i rest, kn ≠ [] →
      c14n.canonLoop kn rn buf (.tok (.ProcInst "xml" i) :: rest) =
      c14n.canonLoop kn rn buf rest) ∧
    (∀ kn rn buf t i rest, kn ≠ [] → t ≠ "xml" →
      c14n.canonLoop kn rn buf (.tok (.ProcInst t i) :: rest) =
      c14n.canonLoop kn rn
        (buf ++ ('<' :: '?' :: t.data ++
          (if i.data ≠ [] then ' ' :: i.data else []) ++ ['?', '>'])) rest) := by
  refine ⟨?_, ?_, ?_, ?_⟩
  · intro rn buf s rest
    rfl
  · intro rn buf t i rest
    rfl
  · intro kn rn buf i rest hk
    cases kn with
    | nil => exact absurd rfl hk
    | cons f kt => rfl
  · intro kn rn buf t i rest hk ht
    cases kn with
    | nil => exact absurd rfl hk
    | cons f kt =>
      rw [c14n.canonLoop, if_neg (by simp [List.isEmpty]), if_neg ht]
      have hlen : (0 < i.length) ↔ (i.data ≠ []) := by
        have hd : i.length = i.data.length := rfl
        rw [hd]
        exact List.length_pos
      simp only [c14n.procInstOutput, gt_iff_lt]
      by_cases hi : i.data = []
      · rw [if_neg (by simp [hlen, hi]), if_neg (by simp [hi])]
        simp [hi]
      · rw [if_pos (hlen.mpr hi), if_pos (by simp [hi])]
        simp

/-- Witness for C9 at concrete inputs. -/
theorem claim_C9_chardata_procinst_witness :
    c14n.canonLoop [[("", "u")]] [] [] [.tok (.ProcInst "xml" "version")] =
      c14n.canonLoop [[("", "u")]] [] [] [] ∧
    c14n.canonLoop [[("", "u")]] [] [] [.tok (.ProcInst "tgt" "body")] =
      c14n.canonLoop [[("", "u")]] []
        ([] ++ ('<' :: '?' :: "tgt".data ++
          (if "body".data ≠ ([] : List Char) then ' ' :: "body".data else []) ++
          ['?', '>'])) [] :=
  ⟨claim_C9_chardata_procinst.2.2.1 [[("", "u")]] [] [] "version" [] (by decide),
   claim_C9_chardata_procinst.2.2.2 [[("", "u")]] [] [] "tgt" "body" [] (by decide) (by decide)⟩

/-! Lemmas about `stack.Used` (the used-flag stack in the source tree). -/

/-- C7 counterexample: on a stack whose innermost frame is empty and whose
outer frame holds `p` marked used, `Used` returns the outer frame's entry,
while the spec's `usedInInnermostFrame` returns nothing. -/
theorem claim_C7_counterexample :
    stack.Used [[], [("p", ⟨"u", true⟩)]] "p" = some "u" ∧
    stack.usedInInnermostFrame [[], [("p", ⟨"u", true⟩)]] "p" = none := by
  constructor <;> rfl

/-- C7 (amended): `Stack.Used` is characterised, for every stack, name and
value, by: `Used` returns `v` for a name exactly when the innermost frame in
which that name is marked used holds the entry `⟨v, true⟩` — equivalently,
there is a frame (index `i`, the head of the list being the innermost frame)
whose entry for the name is `⟨v, true⟩` while every strictly more-inner frame
either lacks the name or holds it unused.  So the innermost frame's used
entries are always included, and a used entry of an outer frame is returned
whenever no more-inner frame has the name marked used. -/
theorem claim_C7_amended :
    ∀ (s : stack.Stack) (k v : String),
      stack.Used s k = some v ↔
        ∃ i, (∃ f, s.get? i = some f ∧ stack.lookupE f k = some ⟨v, true⟩) ∧
          ∀ j, j < i → ∀ f e, s.get? j = some f →
            stack.lookupE f k = some e → e.used = false := by
  intro s k v
  induction s with
  | nil =>
    simp [stack.Used]
  | cons f0 rest ih =>
    cases hl : stack.lookupE f0 k with
    | some e =>
      by_cases hu : e.used = true
      · have hstep : stack.Used (f0 :: rest) k = some e.value := by
          simp [stack.Used, hl, hu]
        rw [hstep]
        constructor
        · intro h
          have hv : e.value = v := by simpa using h
          refine ⟨0, ⟨f0, rfl, ?_⟩, ?_⟩
          · rw [hl]
            cases e
            simp only at hu hv
            simp [hu, hv]
          · intro j hj
            exact absurd hj (Nat.not_lt_zero j)
        · rintro ⟨i, ⟨f, hgf, hlf⟩, hall⟩
          cases i with
          | zero =>
            have hf : f0 = f := by simpa using hgf
            subst hf
            rw [hl] at hlf
            cases hlf
            rfl
          | succ i2 =>
            have he := hall 0 (Nat.succ_pos i2) f0 e rfl hl
            rw [he] at hu
            exact absurd hu (by simp)
      · have hstep : stack.Used (f0 :: rest) k = stack.Used rest k := by
          simp [stack.Used, hl, hu]
        rw [hstep, ih]
        constructor
        · rintro ⟨i, ⟨f, hgf, hlf⟩, hall⟩
          refine ⟨i + 1, ⟨f, by simpa using hgf, hlf⟩, ?_⟩
          intro j hj g e2 hgj hlj
          cases j with
          | zero =>
            have hg : f0 = g := by simpa using hgj
            subst hg
            rw [hl] at hlj
            cases hlj
            simpa using hu
          | succ j2 =>
            exact hall j2 (by omega) g e2 (by simpa using hgj) hlj
        · rintro ⟨i, ⟨f, hgf, hlf⟩, hall⟩
          cases i with
          | zero =>
            have hf : f0 = f := by simpa using hgf
            subst hf
            rw [hl] at hlf
            cases hlf
            exact absurd rfl hu
          | succ i2 =>
            refine ⟨i2, ⟨f, by simpa using hgf, hlf⟩, ?_⟩
            intro j hj g e2 hgj hlj
            exact hall (j + 1) (by omega) g e2 (by simpa using hgj) hlj
    | none =>
      have hstep : stack.Used (f0 :: rest) k = stack.Used rest k := by
        simp [stack.Used, hl]
      rw [hstep, ih]
      constructor
      · rintro ⟨i, ⟨f, hgf, hlf⟩, hall⟩
        refine ⟨i + 1, ⟨f, by simpa using hgf, hlf⟩, ?_⟩
        intro j hj g e2 hgj hlj
        cases j with
        | zero =>
          have hg : f0 = g := by simpa using hgj
          subst hg
          rw [hl] at hlj
          exact absurd hlj (by simp)
        | succ j2 =>
          exact hall j2 (by omega) g e2 (by simpa using hgj) hlj
      · rintro ⟨i, ⟨f, hgf, hlf⟩, hall⟩
        cases i with
        | zero =>
          have hf : f0 = f := by simpa using hgf
          subst hf
          rw [hl] at hlf
          exact absurd hlf (by simp)
        | succ i2 =>
          refine ⟨i2, ⟨f, by simpa using hgf, hlf⟩, ?_⟩
          intro j hj g e2 hgj hlj
          exact hall (j + 1) (by omega) g e2 (by simpa using hgj) hlj

/-- Witness for the amended C7: the characterisation applied at the
counterexample stack, where the returned entry lives in the outer frame
(index 1) because the innermost frame (index 0) lacks the name. -/
theorem claim_C7_amended_witness :
    stack.Used [[], [("p", ⟨"u", true⟩)]] "p" = some "u" :=
  (claim_C7_amended [[], [("p", ⟨"u", true⟩)]] "p" "u").mpr
    ⟨1, ⟨[("p", ⟨"u", true⟩)], rfl, rfl⟩, by
      intro j hj f e hgf hle
      have hj0 : j = 0 := by omega
      subst hj0
      have hf : ([] : stack.FrameE) = f := by simpa using hgf
      rw [← hf] at hle
      exact absurd hle (by simp [stack.lookupE])⟩

/-! Lemmas about processing a balanced block of tokens. -/

theorem processBalanced {ts : List Token} (hb : BalancedToks ts) :
    ∀ (kn rn : nsstack.Stack), kn ≠ [] →
      ∃ out, ∀ (buf : List Char) (rest : List c14n.RawResult),
        c14n.canonLoop kn rn buf (ts.map .tok ++ rest) =
          c14n.canonLoop kn rn (buf ++ out) rest := by
  induction hb with
  | nil =>
    intro kn rn _
    exact ⟨[], fun buf rest => by simp⟩
  | chr s hts ih =>
    rename_i ts2
    intro kn rn hk
    cases kn with
    | nil => exact absurd rfl hk
    | cons f kt =>
      obtain ⟨out, hout⟩ := ih (f :: kt) rn (by simp)
      refine ⟨escapeText s.data ++ out, fun buf rest => ?_⟩
      have step : c14n.canonLoop (f :: kt) rn buf
          (List.map c14n.RawResult.tok (Token.CharData s :: ts2) ++ rest) =
          c14n.canonLoop (f :: kt) rn (buf ++ escapeText s.data)
            (List.map c14n.RawResult.tok ts2 ++ rest) := by
        simp [c14n.canonLoop]
      rw [step, hout, List.append_assoc]
  | pi t i hts ih =>
    rename_i ts2
    intro kn rn hk
    cases kn with
    | nil => exact absurd rfl hk
    | cons f kt =>
      obtain ⟨out, hout⟩ := ih (f :: kt) rn (by simp)
      by_cases ht : t = "xml"
      · refine ⟨out, fun buf rest => ?_⟩
        have step : c14n.canonLoop (f :: kt) rn buf
            (List.map c14n.RawResult.tok (Token.ProcInst t i :: ts2) ++ rest) =
            c14n.canonLoop (f :: kt) rn buf
              (List.map c14n.RawResult.tok ts2 ++ rest) := by
          simp [c14n.canonLoop, ht]
        rw [step, hout]
      · refine ⟨c14n.procInstOutput t i ++ out, fun buf rest => ?_⟩
        have step : c14n.canonLoop (f :: kt) rn buf
            (List.map c14n.RawResult.tok (Token.ProcInst t i :: ts2) ++ rest) =
            c14n.canonLoop (f :: kt) rn (buf ++ c14n.procInstOutput t i)
              (List.map c14n.RawResult.tok ts2 ++ rest) := by
          simp [c14n.canonLoop, ht]
        rw [step, hout, List.append_assoc]
  | elem n a m hinner hts ihinner ihts =>
    rename_i inner2 ts2
    intro kn rn hk
    cases kn with
    | nil => exact absurd rfl hk
    | cons f kt =>
      obtain ⟨out1, hout1⟩ :=
        ihinner (nsstack.Push (f :: kt) (c14n.declaredNames a))
          (nsstack.Push rn (c14n.renderedFrame n a (f :: kt) rn))
          (by simp [nsstack.Push])
      obtain ⟨out2, hout2⟩ := ihts (f :: kt) rn (by simp)
      refine ⟨c14n.startTagOutput n a (f :: kt) rn ++
        (out1 ++ (c14n.closeTagOutput m ++ out2)), fun buf rest => ?_⟩
      have e0 : List.map c14n.RawResult.tok
          ((Token.StartElement n a :: inner2) ++ Token.EndElement m :: ts2) ++ rest =
          c14n.RawResult.tok (Token.StartElement n a) ::
            (List.map c14n.RawResult.tok inner2 ++
              (c14n.RawResult.tok (Token.EndElement m) ::
                (List.map c14n.RawResult.tok ts2 ++ rest))) := by
        simp
      rw [e0]
      have step1 : c14n.canonLoop (f :: kt) rn buf
          (c14n.RawResult.tok (Token.StartElement n a) ::
            (List.map c14n.RawResult.tok inner2 ++
              (c14n.RawResult.tok (Token.EndElement m) ::
                (List.map c14n.RawResult.tok ts2 ++ rest)))) =
          c14n.canonLoop (nsstack.Push (f :: kt) (c14n.declaredNames a))
            (nsstack.Push rn (c14n.renderedFrame n a (f :: kt) rn))
            (buf ++ c14n.startTagOutput n a (f :: kt) rn)
            (List.map c14n.RawResult.tok inner2 ++
              (c14n.RawResult.tok (Token.EndElement m) ::
                (List.map c14n.RawResult.tok ts2 ++ rest))) := by
        simp [c14n.canonLoop]
      rw [step1, hout1]
      have step2 : ∀ B : List Char,
          c14n.canonLoop (nsstack.Push (f :: kt) (c14n.declaredNames a))
            (nsstack.Push rn (c14n.renderedFrame n a (f :: kt) rn)) B
            (c14n.RawResult.tok (Token.EndElement m) ::
              (List.map c14n.RawResult.tok ts2 ++ rest)) =
          c14n.canonLoop (f :: kt) rn (B ++ c14n.closeTagOutput m)
            (List.map c14n.RawResult.tok ts2 ++ rest) := by
        intro B
        simp [c14n.canonLoop, nsstack.Push, nsstack.Pop, nsstack.Len]
      rw [step2, hout2]
      simp [List.append_assoc]

/-- Canonicalization of one complete element (a `StartElement`, a balanced
body, the balancing `EndElement`): the loop returns successfully at that
`EndElement`, with the same output whatever follows it in the source. -/
theorem canonicalize_complete (n : Name) (a : List Attr) {body : List Token}
    (hb : BalancedToks body) (m : Name) :
    ∃ b, (∀ rest, c14n.Canonicalize (.tok (.StartElement n a) :: body.map .tok ++
        .tok (.EndElement m) :: rest) = .ret ⟨some b, none⟩) ∧
      ∃ p, b = p ++ c14n.closeTagOutput m := by
  obtain ⟨out1, hout1⟩ := processBalanced hb
    (nsstack.Push [] (c14n.declaredNames a))
    (nsstack.Push [] (c14n.renderedFrame n a [] [])) (by simp [nsstack.Push])
  refine ⟨c14n.startTagOutput n a [] [] ++ out1 ++ c14n.closeTagOutput m,
    fun rest => ?_, ⟨_, rfl⟩⟩
  show c14n.canonLoop [] [] [] _ = _
  rw [List.cons_append]
  have step1 : c14n.canonLoop [] [] []
      (c14n.RawResult.tok (Token.StartElement n a) ::
        (List.map c14n.RawResult.tok body ++
          c14n.RawResult.tok (Token.EndElement m) :: rest)) =
      c14n.canonLoop (nsstack.Push [] (c14n.declaredNames a))
        (nsstack.Push [] (c14n.renderedFrame n a [] []))
        ([] ++ c14n.startTagOutput n a [] [])
        (List.map c14n.RawResult.tok body ++
          c14n.RawResult.tok (Token.EndElement m) :: rest) := by
    simp [c14n.canonLoop]
  rw [step1, hout1]
  simp [c14n.canonLoop, nsstack.Push, nsstack.Pop, nsstack.Len, List.append_assoc]

/-- C5: canonicalization completes exactly at the `EndElement` balancing the
first `StartElement`: the result is the same whatever tokens follow that
`EndElement` (they are never requested), it is a successful return whose
buffer ends with that close tag (at which point both stacks have emptied),
and each `StartElement` grows both stacks by exactly one frame while each
`EndElement` pops exactly one frame from each, returning as soon as the
popped scope stack is empty. -/
theorem claim_C5_completion :
    (∀ (n : Name) (a : List Attr) (body : List Token) (m : Name)
        (rest : List c14n.RawResult), BalancedToks body →
      (c14n.Canonicalize (.tok (.StartElement n a) :: body.map .tok ++
          .tok (.EndElement m) :: rest) =
        c14n.Canonicalize (.tok (.StartElement n a) :: body.map .tok ++
          .tok (.EndElement m) :: []) ∧
        ∃ b, c14n.Canonicalize (.tok (.StartElement n a) :: body.map .tok ++
            .tok (.EndElement m) :: rest) = .ret ⟨some b, none⟩ ∧
          ∃ p, b = p ++ c14n.closeTagOutput m)) ∧
    (∀ (kn rn : nsstack.Stack) (buf : List Char) (n : Name) (a : List Attr)
        (rest : List c14n.RawResult), ∃ f g out,
      c14n.canonLoop kn rn buf (.tok (.StartElement n a) :: rest) =
        c14n.canonLoop (f :: kn) (g :: rn) (buf ++ out) rest) ∧
    (∀ (f g : nsstack.Frame) (kn rn : nsstack.Stack) (buf : List Char) (n : Name)
        (rest : List c14n.RawResult),
      c14n.canonLoop (f :: kn) (g :: rn) buf (.tok (.EndElement n) :: rest) =
        if kn.length = 0 then .ret ⟨some (buf ++ c14n.closeTagOutput n), none⟩
        else c14n.canonLoop kn rn (buf ++ c14n.closeTagOutput n) rest) := by
  refine ⟨?_, ?_, ?_⟩
  · intro n a body m rest hb
    obtain ⟨b, hall, p, hp⟩ := canonicalize_complete n a hb m
    exact ⟨(hall rest).trans (hall []).symm, b, hall rest, p, hp⟩
  · intro kn rn buf n a rest
    exact ⟨c14n.declaredNames a, c14n.renderedFrame n a kn rn,
      c14n.startTagOutput n a kn rn, rfl⟩
  · intro f g kn rn buf n rest
    rfl

/-- Witness for C5 at a one-element document followed by an extra token. -/
theorem claim_C5_completion_witness :
    c14n.Canonicalize (.tok (.StartElement ⟨"", "r"⟩ []) :: List.map .tok [] ++
        .tok (.EndElement ⟨"", "r"⟩) :: [.tok (.CharData "junk")]) =
      c14n.Canonicalize (.tok (.StartElement ⟨"", "r"⟩ []) :: List.map .tok [] ++
        .tok (.EndElement ⟨"", "r"⟩) :: []) ∧
    ∃ b, c14n.Canonicalize (.tok (.StartElement ⟨"", "r"⟩ []) :: List.map .tok [] ++
        .tok (.EndElement ⟨"", "r"⟩) :: [.tok (.CharData "junk")]) =
      .ret ⟨some b, none⟩ ∧
      ∃ p, b = p ++ c14n.closeTagOutput ⟨"", "r"⟩ :=
  claim_C5_completion.1 ⟨"", "r"⟩ [] [] ⟨"", "r"⟩ [.tok (.CharData "junk")]
    BalancedToks.nil

/-- C10: `Stack.Pop` on an empty stack is the out-of-bounds slice branch (a
panic, not an error return); an `EndElement` arriving as the first token makes
`Canonicalize` write the close tag and then hit that branch instead of
returning an error; and under the precondition that the input starts with a
`StartElement` followed by a balanced body and its balancing `EndElement`,
the run returns normally — every `Pop` acts on a non-empty stack. -/
theorem claim_C10_pop_partiality :
    (nsstack.Pop [] = none ∧ stack.Pop [] = none) ∧
    (∀ (m : Name) (rest : List c14n.RawResult),
      c14n.Canonicalize (.tok (.EndElement m) :: rest) =
        .crash (c14n.closeTagOutput m)) ∧
    (∀ (n : Name) (a : List Attr) (body : List Token) (m : Name)
        (rest : List c14n.RawResult), BalancedToks body →
      ∃ r, c14n.Canonicalize (.tok (.StartElement n a) :: body.map .tok ++
        .tok (.EndElement m) :: rest) = .ret r) := by
  refine ⟨⟨rfl, rfl⟩, ?_, ?_⟩
  · intro m rest
    rfl
  · intro n a body m rest hb
    obtain ⟨b, hall, _⟩ := canonicalize_complete n a hb m
    exact ⟨⟨some b, none⟩, hall rest⟩

/-- Witness for C10's balanced-input part at a concrete document. -/
theorem claim_C10_pop_partiality_witness :
    ∃ r, c14n.Canonicalize (.tok (.StartElement ⟨"", "d"⟩ []) :: List.map .tok [] ++
      .tok (.EndElement ⟨"", "d"⟩) :: []) = .ret r :=
  claim_C10_pop_partiality.2.2 ⟨"", "d"⟩ [] [] ⟨"", "d"⟩ [] BalancedToks.nil

/-- C4: text-content escaping replaces exactly `&`→`&amp;`, `<`→`&lt;`,
`>`→`&gt;` and carriage return→`&#xD;`; attribute-value escaping replaces
exactly `&`→`&amp;`, `<`→`&lt;`, `"`→`&quot;`, tab→`&#x9;`, newline→`&#xA;`
and carriage return→`&#xD;`.  Both chains (ampersand replaced first) equal
the character-wise substitution with the corresponding table; `>` is not
escaped inside attribute values, and the apostrophe (code 39) is altered by
neither escaping. -/
theorem claim_C4_escaping :
    (∀ s : List Char, escapeText s = escapeWith textEscChar s) ∧
    (∀ s : List Char, escapeAttrValue s = escapeWith attrEscChar s) ∧
    attrEscChar '>' = ['>'] ∧
    textEscChar (Char.ofNat 39) = [Char.ofNat 39] ∧
    attrEscChar (Char.ofNat 39) = [Char.ofNat 39] := by
  refine ⟨?_, ?_, by decide, by decide, by decide⟩
  · intro s
    induction s with
    | nil => rfl
    | cons c rest ih =>
      have : c :: rest = [c] ++ rest := rfl
      rw [this, escapeText_append, escapeText_singleton, ih]; rfl
  · intro s
    induction s with
    | nil => rfl
    | cons c rest ih =>
      have : c :: rest = [c] ++ rest := rfl
      rw [this, escapeAttrValue_append, escapeAttrValue_singleton, ih]; rfl
